import Mathlib

/-!
Shallow embedding of the arXiv reference-search scripts
(`srxiv.py`, `search_arxiv.py`, `extract.py`) used to check the
natural-language specification of the repository against the code.

Strings are modelled as `List Char`.  The regular expressions of the
source are compiled by hand into executable backtracking matchers that
follow Python's leftmost, priority-ordered semantics: alternation tries
the left branch first, `*` and `+` are greedy (longest first), `*?` and
`+?` are lazy (shortest first), and `.` matches any character except a
newline.  Each matcher carries a comment quoting the regex it embeds.
-/

namespace SrxivModel

/-- Python regex class `\s` (the ASCII part; inputs are modelled as
ASCII-plus-ordinary-unicode text without exotic space characters). -/
def isWS (c : Char) : Bool :=
  c == ' ' || c == '\t' || c == '\n' || c == '\r' || c == '\x0b' || c == '\x0c'

/-- Python regex `.` : any character except a newline. -/
def isDotC (c : Char) : Bool := c != '\n'

/-- Python regex class `\d` (ASCII digits). -/
def isDigitC (c : Char) : Bool := '0' ≤ c && c ≤ '9'

/-- ASCII alphanumeric, the class `[a-zA-Z0-9]`. -/
def isAlnumC (c : Char) : Bool :=
  ('a' ≤ c && c ≤ 'z') || ('A' ≤ c && c ≤ 'Z') || ('0' ≤ c && c ≤ '9')

/-- Python regex class `\w` restricted to ASCII: alphanumeric or underscore. -/
def isWordC (c : Char) : Bool := isAlnumC c || c == '_'

/-- `startsWithL p s` : `p` is a prefix of `s` (Python `str.startswith`). -/
def startsWithL : List Char → List Char → Bool
  | [], _ => true
  | _ :: _, [] => false
  | p :: ps, s :: ss => p == s && startsWithL ps ss

/-- `hasSubstr pat s` : `pat` occurs somewhere in `s`. -/
def hasSubstr (pat : List Char) : List Char → Bool
  | [] => startsWithL pat []
  | c :: cs => startsWithL pat (c :: cs) || hasSubstr pat cs

/-- Try `f` at `k, k-1, ..., 0` and return the first `some`.
This drives greedy (`longest-first`) backtracking loops. -/
def downFirst (f : Nat → Option α) : Nat → Option α
  | 0 => f 0
  | k + 1 => (f (k + 1)).orElse fun _ => downFirst f k

/-- Try `f` at `i, i+1, ..., i+fuel` and return the first `some`.
This drives lazy (`shortest-first`) backtracking loops. -/
def upFrom (f : Nat → Option α) : Nat → Nat → Option α
  | i, 0 => f i
  | i, fuel + 1 => (f i).orElse fun _ => upFrom f (i + 1) fuel

/-! ## Interactive resolver

`srxiv.py`, `interactive_search` (lines 175-217) and
`search_arxiv.py`, `ResultDisplayer.display_results_interactive`
(lines 259-335).  Both loops keep one piece of state, the number of
candidates disclosed so far (`dispnum` / `displayed_count`), and react
to one line of operator input per iteration.  We model the parsed
command and the reaction of one loop iteration. -/

/-- An operator command, as classified by the source: `q`, `m`, a string
of digits (parsed to its numeric value), or anything else. -/
inductive Cmd where
  | quit : Cmd
  | more : Cmd
  | num : Nat → Cmd
  | other : Cmd
deriving DecidableEq

/-- The externally visible reaction of one loop iteration. -/
inductive Action where
  | quit : Action
  | more : Nat → Action
  | noMore : Action
  | allShown : Action
  | invalid : Action
  | select : Nat → Action
deriving DecidableEq

/-- `srxiv.py` lines 181-209: one iteration of `interactive_search` with
`n` candidates and `dispnum = k`.  A digit command `c` is accepted iff
`0 < int(c) <= len(entries)` (line 203); `m` is handled only when
`n > 1` (line 193) and otherwise falls through to the digit test. -/
def interactive_search_step (n k : Nat) : Cmd → Action
  | .quit => .quit
  | .more =>
      if 1 < n then
        if n ≤ k then .noMore else .more (k + min 5 (n - k))
      else .invalid
  | .num i => if 0 < i ∧ i ≤ n then .select i else .invalid
  | .other => .invalid

/-- `search_arxiv.py` lines 271-325: one iteration of
`display_results_interactive` with `n` entries and
`displayed_count = k`.  A digit command is accepted iff
`1 <= result_num <= min(displayed_count, len(entries))` (line 300). -/
def display_results_interactive_step (n k : Nat) : Cmd → Action
  | .quit => .quit
  | .more => if k < n then .more (k + min 5 (n - k)) else .allShown
  | .num i => if 1 ≤ i ∧ i ≤ min k n then .select i else .invalid
  | .other => .invalid

/-- The disclosed count after a reaction: `none` means the loop
terminates; every reaction other than `more` leaves the count as it was. -/
def applyAction (k : Nat) : Action → Option Nat
  | .quit => none
  | .select _ => none
  | .more j => some j
  | .noMore => some k
  | .allShown => some k
  | .invalid => some k

/-! ## Python string primitives -/

/-- Python `str.strip()` : remove leading and trailing whitespace. -/
def pyStrip (s : List Char) : List Char :=
  ((s.dropWhile isWS).reverse.dropWhile isWS).reverse

/-- Python `str.rstrip("-")` : remove every trailing hyphen. -/
def rstripHyphens (s : List Char) : List Char :=
  (s.reverse.dropWhile (· == '-')).reverse

/-- Python `str.strip(t)` for a single character `t`. -/
def pyStripChar (t : Char) (s : List Char) : List Char :=
  ((s.dropWhile (· == t)).reverse.dropWhile (· == t)).reverse

/-- Python `str.split(sep)` for a one-character separator: fields between
occurrences of `sep`, empty fields kept, at least one field. -/
def splitChar (sep : Char) : List Char → List (List Char) :=
  List.foldr
    (fun c acc =>
      if c == sep then [] :: acc
      else
        match acc with
        | f :: fs => (c :: f) :: fs
        | [] => [[c]])
    [[]]

/-- The last `" "`-separated field of a string
(Python `s.split(" ")[-1]`). -/
def lastSpaceTok (s : List Char) : List Char :=
  (splitChar ' ' s).getLastD []

/-- Python `sep.join(parts)`. -/
def pyJoin (sep : List Char) : List (List Char) → List Char
  | [] => []
  | [x] => x
  | x :: y :: rest => x ++ sep ++ pyJoin sep (y :: rest)

/-- Python `str.splitlines()` restricted to `\n` line breaks: like
splitting on `\n` but with no empty final field for a trailing newline. -/
def splitlinesL (s : List Char) : List (List Char) :=
  if s.isEmpty then []
  else
    let fields := splitChar '\n' s
    if s.getLast? == some '\n' then fields.dropLast else fields

/-- Python `str.replace(pat, repl)` : replace every (leftmost,
non-overlapping) occurrence of `pat`; fuel-driven so that the kernel
can evaluate it (the fuel is an upper bound on the scan length). -/
def pyReplaceF (pat repl : List Char) : Nat → List Char → List Char
  | 0, s => s
  | _ + 1, [] => []
  | fuel + 1, c :: cs =>
    if startsWithL pat (c :: cs) && !pat.isEmpty then
      repl ++ pyReplaceF pat repl fuel ((c :: cs).drop pat.length)
    else
      c :: pyReplaceF pat repl fuel cs

/-- Python `str.replace(pat, repl)`. -/
def pyReplace (pat repl s : List Char) : List Char :=
  pyReplaceF pat repl s.length s

/-! ## Word extraction and query construction (`srxiv.py` lines 123-139)

`word_pattern = r'\b(?![Aa]nd\b)[a-zA-Z0-9]{2,}\b'` and
`re.findall(word_pattern, s)`.  A match of this pattern is a maximal run
of word characters (`\w`, here modelled as ASCII alphanumerics plus
underscore) that consists only of `[a-zA-Z0-9]`, has length at least 2,
and is not exactly `and` / `And` (the lookahead only bites when a word
boundary follows the three letters).  `findall` returns the runs in
text order. -/

/-- Maximal runs of word characters of a string, in order; `acc` is the
reversed run currently being read. -/
def wordRunsAux (acc : List Char) : List Char → List (List Char)
  | [] => if acc.isEmpty then [] else [acc.reverse]
  | c :: cs =>
    if isWordC c then wordRunsAux (c :: acc) cs
    else if acc.isEmpty then wordRunsAux [] cs
    else acc.reverse :: wordRunsAux [] cs

/-- Maximal runs of word characters of a string, in order. -/
def wordRuns (s : List Char) : List (List Char) := wordRunsAux [] s

/-- `re.findall(r'\b(?![Aa]nd\b)[a-zA-Z0-9]{2,}\b', s)`. -/
def word_pattern_findall (s : List Char) : List (List Char) :=
  (wordRuns s).filter fun r =>
    r.all isAlnumC && decide (2 ≤ r.length) && !(r == "and".data) && !(r == "And".data)

/-- Stable insertion of `x` into `l` for a descending-by-key order:
`x` goes before the first element whose key is not larger. -/
def insortKey {α κ : Type} [LinearOrder κ] (key : α → κ) (x : α) : List α → List α
  | [] => [x]
  | y :: ys => if key x < key y then y :: insortKey key x ys else x :: y :: ys

/-- Python `sorted(l, key=key, reverse=True)` : stable, descending. -/
def pySortedDesc {α κ : Type} [LinearOrder κ] (key : α → κ) : List α → List α
  | [] => []
  | x :: xs => insortKey key x (pySortedDesc key xs)

/-- `srxiv.py` line 129-130: author-scoped query terms,
`(f'au:{w}' for w in sorted(re.findall(word_pattern, authors), key=len, reverse=True))`. -/
def srxiv_author_terms (authors : List Char) : List (List Char) :=
  (pySortedDesc (fun w => w.length) (word_pattern_findall authors)).map
    (fun w => "au:".data ++ w)

/-- `srxiv.py` lines 128-132: the full term list of the query,
author terms followed by `re.findall(word_pattern, title)`. -/
def srxiv_query_terms (authors title : List Char) : List (List Char) :=
  srxiv_author_terms authors ++ word_pattern_findall title

/-! ## `search_arxiv.py` author query (`ArxivSearcher._build_author_query`) -/

/-- The tail of the `,\s+` alternative (after the leading comma): a
nonempty maximal whitespace run.  Backtracking to a shorter run cannot
help, since the run would then be followed by another whitespace
character where a non-whitespace literal is expected. -/
def sepLenComma (rest : List Char) : Option Nat :=
  if (rest.takeWhile isWS).isEmpty then none
  else some (1 + (rest.takeWhile isWS).length)

/-- The `\s+and\s+` alternative anchored at the head of `s`. -/
def sepLenAnd (s : List Char) : Option Nat :=
  if (s.takeWhile isWS).isEmpty then none
  else if startsWithL "and".data (s.drop (s.takeWhile isWS).length) then
    if (((s.drop (s.takeWhile isWS).length).drop 3).takeWhile isWS).isEmpty then
      none
    else
      some ((s.takeWhile isWS).length + 3 +
        (((s.drop (s.takeWhile isWS).length).drop 3).takeWhile isWS).length)
  else none

/-- One separator match of `re.split(r",\s+|\s+and\s+", s)` at the head
of `s`: the number of characters the separator consumes, or `none`.
Alternation order: `,\s+` first, then `\s+and\s+` (a string starting
with `,` can never match the second alternative, so trying it only
behind the comma test is equivalent). -/
def sepLen (s : List Char) : Option Nat :=
  if s.head? = some ',' then sepLenComma s.tail else sepLenAnd s

/-- `re.split(r",\s+|\s+and\s+", s)` : scan left to right, cut at each
separator match; fuel-driven (the fuel is an upper bound on the scan
length). -/
def pySplitSepF : Nat → List Char → List (List Char)
  | 0, s => [s]
  | _ + 1, [] => [[]]
  | fuel + 1, c :: cs =>
    match sepLen (c :: cs) with
    | some k => [] :: pySplitSepF fuel ((c :: cs).drop k)
    | none =>
      match pySplitSepF fuel cs with
      | f :: fs => (c :: f) :: fs
      | [] => [[c]]

/-- `re.split(r",\s+|\s+and\s+", s)`. -/
def pySplitSep (s : List Char) : List (List Char) :=
  pySplitSepF s.length s

/-- `search_arxiv.py` lines 104-113, `_build_author_query`: split the
authors string on `,\s+` and `\s+and\s+`, strip each part, drop empty
parts, take each part's last space-separated token as the surname, and
join `au:` terms with `" AND "`. -/
def build_author_query (authors : List Char) : List Char :=
  let author_list := ((pySplitSep authors).map pyStrip).filter (fun a => !a.isEmpty)
  let query_parts := author_list.map (fun a => "au:".data ++ lastSpaceTok a)
  pyJoin " AND ".data query_parts

/-! ## The citation grammar of `srxiv.py` (lines 87-121)

```
jnlpat = ((?:[^,]+,[^,]+\((?P<year1>\d+)\)\.)|(?:[^,]+\((?P<year2>\d+)\)\s\d+\.))
refpat[0] = ^(?P<authors>.*),\s(“|")(?P<title>.*),(”|")\s{jnlpat}
refpat[1] = ^(?P<authors>(?:.+? and .+?)|(?:[^,]+)),\s(?P<title>.*),\s{jnlpat}
refpat[2] = ^(?P<authors>(?:.+? and .+?)|(?:[^,]+)),\s{jnlpat}
```
and the universal pattern of `extract.py` / `search_arxiv.py`:
```
^(?P<authors>(?:.+? and .+?)|(?:[^,]+)),\s(?P<title>.*),\s(?P<source>.*)$
``` -/

/-- `\((\d+)\)\.` at the head of `s` (the `(digits)` run is forced:
inside it only shorter digit runs could backtrack, and they end on a
digit where `)` is expected). -/
def parenYearDot (s : List Char) : Bool :=
  match s with
  | '(' :: r =>
    let ds := r.takeWhile isDigitC
    !ds.isEmpty && startsWithL ").".data (r.drop ds.length)
  | _ => false

/-- `\((\d+)\)\s\d+\.` at the head of `s`. -/
def parenYearSpDigitsDot (s : List Char) : Bool :=
  match s with
  | '(' :: r =>
    let ds := r.takeWhile isDigitC
    if ds.isEmpty then false
    else
      match r.drop ds.length with
      | ')' :: w :: r3 =>
        if isWS w then
          let ns := r3.takeWhile isDigitC
          !ns.isEmpty && startsWithL ".".data (r3.drop ns.length)
        else false
      | _ => false
  | _ => false

/-- `[^,]+` followed by `test`, with full backtracking, as a Boolean
prefix match: scan forward over non-comma characters and try `test` at
every position after at least one consumed character. -/
def scanNoCommaThenAux (test : List Char → Bool) : Bool → List Char → Bool
  | _, [] => false
  | started, c :: cs =>
    if c == ',' then false
    else (started && test (c :: cs)) || scanNoCommaThenAux test true cs

/-- First alternative of `jnlpat`: `[^,]+,[^,]+\((\d+)\)\.` as a prefix
match.  The first `[^,]+,` forces the text up to the first comma. -/
def jnlAlt1 (s : List Char) : Bool :=
  let x := s.takeWhile (fun c => !(c == ','))
  if x.isEmpty then false
  else
    match s.drop x.length with
    | ',' :: rest => scanNoCommaThenAux parenYearDot false rest
    | _ => false

/-- Second alternative of `jnlpat`: `[^,]+\((\d+)\)\s\d+\.` as a prefix
match. -/
def jnlAlt2 (s : List Char) : Bool :=
  scanNoCommaThenAux parenYearSpDigitsDot false s

/-- `jnlpat` as a Boolean prefix match (nothing follows it in any of the
three patterns, so only matchability matters). -/
def jnlMatch (s : List Char) : Bool := jnlAlt1 s || jnlAlt2 s

/-- `(?P<title>.*),\s{jnlpat}` : greedy title, so the longest prefix `t`
of `r` of non-newline characters followed by `,`, a whitespace
character, and a `jnlpat` match. -/
def titleJnlSplit (r : List Char) : Option (List Char) :=
  downFirst
    (fun j =>
      let t := r.take j
      match r.drop j with
      | ',' :: w :: rest =>
        if isWS w && t.all isDotC && jnlMatch rest then some t else none
      | _ => none)
    r.length

/-- First authors alternative `(?:.+? and .+?)` followed by `,\s` and a
tail matcher: both `.+?` are lazy, so the split positions are tried
shortest-first, and a tail failure backtracks into longer captures. -/
def authorsBranch1 {β : Type} (tail : List Char → Option β) (s : List Char) :
    Option (List Char × β) :=
  upFrom
    (fun i =>
      let a := s.take i
      if a.all isDotC && startsWithL " and ".data (s.drop i) then
        let r := s.drop (i + 5)
        upFrom
          (fun j =>
            let b := r.take j
            match r.drop j with
            | ',' :: w :: rest =>
              if isWS w && b.all isDotC then
                match tail rest with
                | some v => some (a ++ " and ".data ++ b, v)
                | none => none
              else none
            | _ => none)
          1 r.length
      else none)
    1 s.length

/-- Second authors alternative `(?:[^,]+)` followed by `,\s` and a tail
matcher.  The greedy `[^,]+` is forced to the full run before the first
comma: a shorter capture is followed by a non-comma character where the
`,` literal is expected. -/
def authorsBranch2 {β : Type} (tail : List Char → Option β) (s : List Char) :
    Option (List Char × β) :=
  let p := s.takeWhile (fun c => !(c == ','))
  if p.isEmpty then none
  else
    match s.drop p.length with
    | ',' :: w :: rest =>
      if isWS w then (tail rest).map (fun v => (p, v)) else none
    | _ => none

/-- `refpat[1]` : returns `(authors, title)` of the leftmost
priority-ordered match under `re.match`. -/
def refpat1Match (s : List Char) : Option (List Char × List Char) :=
  (authorsBranch1 titleJnlSplit s).orElse fun _ => authorsBranch2 titleJnlSplit s

/-- `refpat[2]` : returns the authors capture. -/
def refpat2Match (s : List Char) : Option (List Char) :=
  ((authorsBranch1 (fun rest => if jnlMatch rest then some () else none) s).orElse
      (fun _ => authorsBranch2 (fun rest => if jnlMatch rest then some () else none) s)).map
    (fun p => p.1)

/-- Opening quote alternative `(“|")`. -/
def isOpenQ (c : Char) : Bool := c == '“' || c == '"'

/-- Closing quote alternative `(”|")`. -/
def isCloseQ (c : Char) : Bool := c == '”' || c == '"'

/-- One candidate split of the title part of `refpat[0]` : title =
`r.take j`, followed by the literal `,`, a closing quote, `\s` and a
`jnlpat` match. -/
def refpat0TitleCheck (r : List Char) (j : Nat) : Option (List Char) :=
  match r.drop j with
  | c1 :: q :: w :: rest =>
    if c1 == ',' && isCloseQ q && isWS w && (r.take j).all isDotC &&
        jnlMatch rest then
      some (r.take j)
    else none
  | _ => none

/-- Title part of `refpat[0]` : `(?P<title>.*),(”|")\s{jnlpat}` with a
greedy title (split positions tried longest-first). -/
def refpat0Title (r : List Char) : Option (List Char) :=
  downFirst (refpat0TitleCheck r) r.length

/-- One candidate split of `refpat[0]` : authors = `s.take i`, followed
by the literal `,`, `\s`, an opening quote and the title part. -/
def refpat0Check (s : List Char) (i : Nat) : Option (List Char × List Char) :=
  match s.drop i with
  | c1 :: w :: q :: rest =>
    if c1 == ',' && isWS w && isOpenQ q && (s.take i).all isDotC then
      (refpat0Title rest).map (fun t => (s.take i, t))
    else none
  | _ => none

/-- `refpat[0]` : `^(?P<authors>.*),\s(“|")(?P<title>.*),(”|")\s{jnlpat}`,
returning `(authors, title)`.  The authors `.*` is greedy, so split
positions are tried longest-first. -/
def refpat0Match (s : List Char) : Option (List Char × List Char) :=
  downFirst (refpat0Check s) s.length

/-- `.*$` : either all characters are non-newline, or all but a single
final newline are (Python `$` also matches just before a newline that
ends the string). -/
def dollarTail (u : List Char) : Bool :=
  u.all isDotC ||
    (u.getLast? == some '\n' && u.dropLast.all isDotC)

/-- `(?P<title>.*),\s(?P<source>.*)$` with a greedy title: the longest
admissible split; returns `(title, source)`. -/
def extractTitleSplit (r : List Char) : Option (List Char × List Char) :=
  downFirst
    (fun j =>
      let t := r.take j
      match r.drop j with
      | ',' :: w :: rest =>
        if isWS w && t.all isDotC && dollarTail rest then some (t, rest) else none
      | _ => none)
    r.length

/-- `extract.py` lines 18-32 (`extract_author_and_title_universal`) and
the identical `CITATION_PATTERN` of `search_arxiv.py` lines 23-27:
match the universal pattern against the stripped citation string and
return the stripped authors and title captures. -/
def extract_author_and_title_universal (s0 : List Char) :
    Option (List Char × List Char) :=
  let s := pyStrip s0
  ((authorsBranch1 extractTitleSplit s).orElse
      (fun _ => authorsBranch2 extractTitleSplit s)).map
    (fun p => (pyStrip p.1, pyStrip p.2.1))

/-! ## `srxiv.py` `request_arxiv` (lines 79-139), up to the API call -/

/-- Tail of the arXiv-id regex: `[^\s,]+` (greedy, at least one char). -/
def idTail (u : List Char) : Option (List Char) :=
  let idc := u.takeWhile (fun c => !(isWS c) && !(c == ','))
  if idc.isEmpty then none else some idc

/-- `ar-?Xiv:(?P<arxiv_id>[^\s,]+)` anchored at the head of `s`. -/
def arxivIdHere (s : List Char) : Option (List Char) :=
  if startsWithL "arXiv:".data s then idTail (s.drop 6)
  else if startsWithL "ar-Xiv:".data s then idTail (s.drop 7)
  else none

/-- `(?P<arxiv_id>hep-th/\d{7,})` anchored at the head of `s`. -/
def hepThHere (s : List Char) : Option (List Char) :=
  if startsWithL "hep-th/".data s then
    let ds := (s.drop 7).takeWhile isDigitC
    if decide (7 ≤ ds.length) then some ("hep-th/".data ++ ds) else none
  else none

/-- `re.search` : try an anchored matcher at every position, leftmost
first. -/
def searchPos {β : Type} (f : List Char → Option β) : List Char → Option β
  | [] => f []
  | c :: cs =>
    match f (c :: cs) with
    | some v => some v
    | none => searchPos f cs

/-- `srxiv.py` lines 81-82: the identifier short-circuit of
`request_arxiv`. -/
def srxiv_find_id (reftxt : List Char) : Option (List Char) :=
  (searchPos arxivIdHere reftxt).orElse fun _ => searchPos hepThHere reftxt

/-- What `request_arxiv` does before issuing any HTTP request. -/
inductive RequestQuery where
  | byId : List Char → RequestQuery
  | byTerms : List (List Char) → RequestQuery
  | matchFailed : RequestQuery
  | emptyQuery : RequestQuery
deriving DecidableEq

/-- `srxiv.py` lines 79-139 (`request_arxiv` with `mode=None`, up to the
API call): identifier short-circuit, then `refpat[0]`, `refpat[1]`,
`refpat[2]` in order; the title group is absent in `refpat[2]` and
treated as `""`; both captures are stripped; the query is the
`' '`-joined term list and an empty term list aborts. -/
def request_arxiv_query (reftxt : List Char) : RequestQuery :=
  match srxiv_find_id reftxt with
  | some i => .byId i
  | none =>
    match
      ((refpat0Match reftxt).orElse fun _ => refpat1Match reftxt).orElse
        (fun _ => (refpat2Match reftxt).map (fun a => (a, [])))
    with
    | none => .matchFailed
    | some (a, t) =>
      let terms := srxiv_query_terms (pyStrip a) (pyStrip t)
      if terms.isEmpty then .emptyQuery else .byTerms terms

/-! ## Reference-block reassembly (`srxiv.py` `get_reftxt`, lines 35-61) -/

/-- `^\[\d+\]` at the head of a line. -/
def matchesAnyMarker (l : List Char) : Bool :=
  match l with
  | '[' :: r =>
    let ds := r.takeWhile isDigitC
    !ds.isEmpty && startsWithL "]".data (r.drop ds.length)
  | _ => false

/-- The marker `f"[{refnum}]"`. -/
def refMarker (n : Nat) : List Char := '[' :: (Nat.repr n).data ++ [']']

/-- `re.sub(r"^\[\d+\]", "", l)` : remove one leading `[digits]` marker
if present. -/
def stripLeadMarker (l : List Char) : List Char :=
  match l with
  | '[' :: r =>
    let ds := r.takeWhile isDigitC
    if !ds.isEmpty && startsWithL "]".data (r.drop ds.length) then
      (r.drop ds.length).drop 1
    else l
  | _ => l

/-- `srxiv.py` lines 50-59: the joining loop over `lines[ini:fin]`
(here `lines` is already the sliced block and `j` the loop index).
A line ending in `-` looks at `lines[j+1][0]` when `j+1` is still in
range; indexing an empty following line raises, modelled as `none`. -/
def get_reftxt_joinF (lines : List (List Char)) : Nat → Nat → Option (List Char)
  | _, 0 => some []
  | j, fuel + 1 =>
    match lines.get? j with
    | none => some []
    | some l =>
      if l.getLast? == some '-' then
        match lines.get? (j + 1) with
        | some [] => none
        | some (c :: _) =>
          if c.isUpper then (get_reftxt_joinF lines (j + 1) fuel).map (fun r => l ++ r)
          else (get_reftxt_joinF lines (j + 1) fuel).map (fun r => rstripHyphens l ++ r)
        | none => (get_reftxt_joinF lines (j + 1) fuel).map (fun r => rstripHyphens l ++ r)
      else (get_reftxt_joinF lines (j + 1) fuel).map (fun r => l ++ ' ' :: r)

/-- The joining loop started at index `j`. -/
def get_reftxt_join (lines : List (List Char)) (j : Nat) : Option (List Char) :=
  get_reftxt_joinF lines j (lines.length - j)

/-- The hyphen-unwrap policy as an independent total description: keep
the line when its trailing hyphen precedes an uppercase-starting
continuation, drop all trailing hyphens otherwise (also at the end of
the block), and append a space after a line with no trailing hyphen. -/
def claim_hyphen_join : List (List Char) → List Char
  | [] => []
  | [l] => if l.getLast? == some '-' then rstripHyphens l else l ++ [' ']
  | l :: l2 :: rest =>
    (if l.getLast? == some '-' then
      match l2 with
      | c :: _ => if c.isUpper then l else rstripHyphens l
      | [] => rstripHyphens l
    else l ++ [' ']) ++ claim_hyphen_join (l2 :: rest)

/-- No line of the block that ends in a hyphen is followed (inside the
block) by an empty line — the domain on which the joining loop cannot
raise. -/
def noHyphenBeforeEmpty : List (List Char) → Bool
  | [] => true
  | [_] => true
  | l :: l2 :: rest =>
    (!(l.getLast? == some '-') || !l2.isEmpty) && noHyphenBeforeEmpty (l2 :: rest)

/-- `srxiv.py` lines 35-61: the text-processing part of `get_reftxt`,
starting from the joined page text.  `some []` models the `return ""`
branches; `none` models the uncaught `IndexError` of the joining loop. -/
def get_reftxt_from_text (pdftxt : List Char) (refnum : Nat) : Option (List Char) :=
  let lines := splitlinesL pdftxt
  match lines.findIdx? (fun l => startsWithL (refMarker refnum) l) with
  | none => some []
  | some ini =>
    let fin :=
      match (lines.drop (ini + 1)).findIdx? matchesAnyMarker with
      | some k => ini + 1 + k
      | none => lines.length
    let block := (lines.drop ini).take (fin - ini)
    (get_reftxt_join block 0).map (fun reftxt => pyStrip (stripLeadMarker reftxt))

/-! ## Similarity ranking (`search_arxiv.py` lines 98-168) -/

/-- A feed entry as returned by the repository client (the fields
`_parse_entry` reads). -/
structure RawEntry where
  title : List Char
  authors : List (List Char)
  id : List Char
deriving DecidableEq

/-- `search_arxiv.py` lines 30-37, the `ArxivEntry` dataclass. -/
structure ArxivEntry where
  title : List Char
  authors : List (List Char)
  arxiv_url : List Char
  pdf_url : List Char
  similarity_score : ℚ
deriving DecidableEq

/-- Length of a longest common subsequence, fuel-driven (the fuel is an
upper bound on the sum of the lengths). -/
def lcsLenF : Nat → List Char → List Char → Nat
  | 0, _, _ => 0
  | _ + 1, [], _ => 0
  | _ + 1, _ :: _, [] => 0
  | fuel + 1, a :: as, b :: bs =>
    if a == b then lcsLenF fuel as bs + 1
    else max (lcsLenF fuel (a :: as) bs) (lcsLenF fuel as (b :: bs))

/-- Length of a longest common subsequence. -/
def lcsLen (a b : List Char) : Nat := lcsLenF (a.length + b.length) a b

/-- Modelled from the spec: the external string-similarity measure
(`rapidfuzz.fuzz.ratio`, §4.5 "a string-similarity measure over the two
titles" on a 0-100 scale), which is the normalized indel similarity
`100 * (1 - indel_distance/(|a|+|b|)) = 100 * 2*lcs/(|a|+|b|)`, with
two empty strings scoring 100. -/
def fuzz_ratio (a b : List Char) : ℚ :=
  if a.length + b.length = 0 then 100
  else 100 * (2 * lcsLen a b) / (a.length + b.length)

/-- `search_arxiv.py` lines 132-134, `_calculate_similarity`. -/
def calculate_similarity (target_title entry_title : List Char) : ℚ :=
  fuzz_ratio target_title entry_title

/-- `search_arxiv.py` lines 136-151, `_parse_entry` (the feed entry is
modelled with its fields present). -/
def parse_entry (target_title : List Char) (e : RawEntry) : ArxivEntry :=
  { title := e.title
    authors := e.authors
    arxiv_url := e.id
    pdf_url :=
      if e.id.isEmpty then []
      else pyReplace "/abs/".data "/pdf/".data e.id ++ ".pdf".data
    similarity_score := calculate_similarity target_title e.title }

/-- `search_arxiv.py` lines 161-168: parse the feed entries and sort by
similarity score in descending order
(`sorted(..., key=lambda x: x.similarity_score, reverse=True)`). -/
def search_by_authors_rank (target_title : List Char) (feed : List RawEntry) :
    List ArxivEntry :=
  pySortedDesc (fun e => e.similarity_score) (feed.map (parse_entry target_title))

/-! ## Download / fetch steps (`srxiv.py` lines 148-163,
`search_arxiv.py` lines 205-230).  The filesystem is a map from path to
contents; the network is an oracle from URL to response. -/

/-- A filesystem: path to contents, `none` when the path does not exist. -/
def FS : Type := List Char → Option (List Char)

/-- The outcome of one fetch step: the filesystem afterwards, whether an
HTTP request was issued, and either success (the artifact was opened)
or the raised error. -/
structure DlOutcome where
  fs : FS
  requested : Bool
  result : Except (List Char) Unit

/-- Write one file. -/
def fsUpdate (fs : FS) (p v : List Char) : FS :=
  fun q => if q = p then some v else fs q

/-- An entry as used by `dl_open_pdf` (fields `e.id`, `e.title`). -/
structure FEntry where
  id : List Char
  title : List Char

/-- `srxiv.py` lines 150-153: the output filename,
`{e.id.split('/')[-1]}_{safe_title}.pdf` with
`safe_title = re.sub(r'(\s|-)+', '_', re.sub(r'[^\w\s-]', '', e.title)).strip('_')[:40]`. -/
def collapseRunsAux (inRun : Bool) : List Char → List Char
  | [] => []
  | c :: cs =>
    if isWS c || c == '-' then
      if inRun then collapseRunsAux true cs else '_' :: collapseRunsAux true cs
    else c :: collapseRunsAux false cs

/-- `re.sub(r'(\s|-)+', '_', s)` : each maximal run of whitespace or
hyphens becomes a single underscore. -/
def collapseRuns (s : List Char) : List Char := collapseRunsAux false s

/-- The destination filename computed by `dl_open_pdf`. -/
def dl_filename (e : FEntry) : List Char :=
  let arxiv_id := (splitChar '/' e.id).getLastD []
  let st :=
    (pyStripChar '_'
        (collapseRuns (e.title.filter (fun c => isWordC c || isWS c || c == '-')))).take 40
  arxiv_id ++ '_' :: st ++ ".pdf".data

/-- `e.id.replace('/abs/', '/pdf/') + '.pdf'` (line 157). -/
def pdf_url_of (e : FEntry) : List Char :=
  pyReplace "/abs/".data "/pdf/".data e.id ++ ".pdf".data

/-- `srxiv.py` lines 148-163, `dl_open_pdf` up to the viewer launch:
skip the download when the target file exists; otherwise request the
PDF URL, propagate a transport error, reject content that does not
start with `%PDF` without writing anything, and write the file on
success. -/
def dl_open_pdf (fs : FS) (net : List Char → Except (List Char) (List Char))
    (e : FEntry) : DlOutcome :=
  let fp := dl_filename e
  if (fs fp).isSome then { fs := fs, requested := false, result := .ok () }
  else
    match net (pdf_url_of e) with
    | .error msg => { fs := fs, requested := true, result := .error msg }
    | .ok content =>
      if startsWithL "%PDF".data content then
        { fs := fsUpdate fs fp content, requested := true, result := .ok () }
      else
        { fs := fs, requested := true,
          result := .error "Downloaded content is not a valid PDF.".data }

/-- `search_arxiv.py` lines 205-230, `download_pdf_and_view` up to the
viewer launch: open the existing file without any request when the
destination exists, else download and write (this variant has no magic
check). -/
def download_pdf_and_view (fs : FS)
    (net : List Char → Except (List Char) (List Char))
    (url filename : List Char) : DlOutcome :=
  if (fs filename).isSome then { fs := fs, requested := false, result := .ok () }
  else
    match net url with
    | .error msg => { fs := fs, requested := true, result := .error msg }
    | .ok content =>
      { fs := fsUpdate fs filename content, requested := true, result := .ok () }

/-! ## Concrete inputs used by the claims -/

/-- The Banks–Rabinovici citation string of the spec's round-trip
examples (§8). -/
def banksCitation : List Char :=
  "T. Banks and E. Rabinovici, Finite Temperature Behavior of the Lattice Abelian Higgs Model, Nucl. Phys. B 160 (1979) 349–379".data

/-- A citation of the exact quoted-title shape the spec writes —
`<authors>, "<title>", <source>` with the comma after the closing
quote — whose source part matches the journal/year sub-grammar. -/
def quotedSpecShape : List Char :=
  "A. Author, \"Nice Title\", J. Phys, B (2020).".data

/-- The input of the quoted-title shape with arbitrary parts, comma
after the closing quote (the shape exactly as the spec writes it). -/
def quotedCommaOutside (a t src : List Char) : List Char :=
  a ++ ", \"".data ++ t ++ "\", ".data ++ src

/-- The quoted-title shape as the regex actually expects it: the comma
placed before the closing quote. -/
def quotedCommaInside (a t src : List Char) : List Char :=
  a ++ ", \"".data ++ t ++ ",\" ".data ++ src

/-- No double-quote character (straight or curly) occurs in the list. -/
abbrev noQuote (l : List Char) : Prop :=
  ∀ c ∈ l, isOpenQ c = false ∧ isCloseQ c = false

/-- No newline occurs in the list (every character matches regex `.`). -/
abbrev noNl (l : List Char) : Prop := ∀ c ∈ l, isDotC c = true

/-- A citation whose authors field is a single name with a spelled-out
first name. -/
def thomasCitation : List Char :=
  "Thomas Banks, Great Theory, Nucl. Phys, B (1999).".data

/-- A name is clean when it is nonempty, contains no comma, only plain
spaces as whitespace, does not start or end with a space, and does not
contain `" and "` — i.e. it contains no separator of
`re.split(r",\s+|\s+and\s+", ·)` and survives `strip()` unchanged. -/
def cleanName (nm : List Char) : Bool :=
  !nm.isEmpty &&
    nm.all (fun c => !(c == ',') && (!isWS c || c == ' ')) &&
    !(nm.headI == ' ') && !(nm.getLastD ' ' == ' ') &&
    !hasSubstr " and ".data nm

/-- A concrete entry for fetch-step witnesses. -/
def wEntry : FEntry := ⟨"x/abs/1".data, "T".data⟩

/-- An empty filesystem. -/
def wFS0 : FS := fun _ => none

/-- A network oracle that always returns a valid PDF byte stream. -/
def wNet : List Char → Except (List Char) (List Char) :=
  fun _ => .ok "%PDFxyz".data

/-- A network oracle that always returns bytes without the PDF magic. -/
def wNetBad : List Char → Except (List Char) (List Char) :=
  fun _ => .ok "oops".data

/-! # Theorems -/

set_option maxRecDepth 100000

/-- If `f` is `none` strictly above `i` (up to `k`) and `some b` at `i`,
the descending search returns `b`. -/
theorem downFirst_eq_some {α : Type} {f : Nat → Option α} {i k : Nat} {b : α}
    (hik : i ≤ k) (hi : f i = some b)
    (hnone : ∀ m, i < m → m ≤ k → f m = none) :
    downFirst f k = some b := by
  induction k with
  | zero =>
    have h0 : i = 0 := Nat.le_zero.mp hik
    subst h0
    simpa [downFirst] using hi
  | succ k ih =>
    rcases Nat.eq_or_lt_of_le hik with h | h
    · subst h
      simp [downFirst, hi]
    · have hk1 : f (k + 1) = none := hnone (k + 1) h (Nat.le_refl _)
      have hik' : i ≤ k := Nat.lt_succ_iff.mp h
      have := ih hik' (fun m hm hmk => hnone m hm (Nat.le_succ_of_le hmk))
      simp [downFirst, hk1, this]

/-! ## C1 : numeric selection versus the disclosed count -/

/-- C1, counterexample.  With `N = 2` candidates and only `k = 1`
disclosed, `interactive_search` (srxiv.py line 203) accepts the numeric
selection `2` and hands candidate 2 to the fetch step, although
`k < 2 ≤ N`; the claim demands rejection as invalid input there. -/
theorem c1_counterexample :
    interactive_search_step 2 1 (Cmd.num 2) = Action.select 2 ∧
    Action.select 2 ≠ Action.invalid := by decide

/-- C1, amended.  In `display_results_interactive` the claimed invariant
holds: with `k ≤ N`, a numeric selection `i` is accepted exactly for
`1 ≤ i ≤ k`, and for `k < i ≤ N` it is rejected as invalid input with
the disclosed count unchanged.  In `interactive_search`, however, a
numeric selection is accepted for every `1 ≤ i ≤ N`, regardless of the
disclosed count. -/
theorem c1_selection_bounds (n k i : Nat) (hkn : k ≤ n) :
    (1 ≤ i ∧ i ≤ k → display_results_interactive_step n k (Cmd.num i) = Action.select i) ∧
    (k < i ∧ i ≤ n →
      display_results_interactive_step n k (Cmd.num i) = Action.invalid ∧
      applyAction k Action.invalid = some k) ∧
    interactive_search_step n k (Cmd.num i) =
      (if 1 ≤ i ∧ i ≤ n then Action.select i else Action.invalid) := by
  have hmin : min k n = k := Nat.min_eq_left hkn
  refine ⟨fun h => ?_, fun h => ⟨?_, rfl⟩, ?_⟩
  · simp only [display_results_interactive_step, hmin]
    rw [if_pos h]
  · simp only [display_results_interactive_step, hmin]
    rw [if_neg (by omega)]
  · simp only [interactive_search_step]
    by_cases h : 1 ≤ i ∧ i ≤ n
    · rw [if_pos (by omega : 0 < i ∧ i ≤ n), if_pos h]
    · rw [if_neg (by omega : ¬(0 < i ∧ i ≤ n)), if_neg h]

/-- C1, witness: the amended statement at `N = 12`, `k = 6`, `i = 9`. -/
theorem c1_witness :
    (6 : Nat) ≤ 12 ∧
    ((1 ≤ 9 ∧ 9 ≤ 6 → display_results_interactive_step 12 6 (Cmd.num 9) = Action.select 9) ∧
     (6 < 9 ∧ 9 ≤ 12 →
       display_results_interactive_step 12 6 (Cmd.num 9) = Action.invalid ∧
       applyAction 6 Action.invalid = some 6) ∧
     interactive_search_step 12 6 (Cmd.num 9) =
       (if 1 ≤ 9 ∧ 9 ≤ 12 then Action.select 9 else Action.invalid)) :=
  ⟨by decide, c1_selection_bounds 12 6 9 (by decide)⟩

/-! ## C2 : the Banks–Rabinovici round-trip example -/

/-- C2, counterexample.  On the Banks–Rabinovici string no grammar
variant of `srxiv.py`'s `request_arxiv` matches — the source part
`Nucl. Phys. B 160 (1979) 349–379` ends without the period that both
alternatives of the journal/year sub-grammar require — so the parse
fails instead of succeeding as the claim states. -/
theorem c2_counterexample :
    refpat0Match banksCitation = none ∧
    refpat1Match banksCitation = none ∧
    refpat2Match banksCitation = none ∧
    request_arxiv_query banksCitation = RequestQuery.matchFailed := by decide

/-- C2, amended.  The universal citation pattern of `extract.py`
(`extract_author_and_title_universal`, identical to `CITATION_PATTERN`
of `search_arxiv.py`) does match the Banks–Rabinovici string and yields
authors exactly `"T. Banks and E. Rabinovici"` and title exactly
`"Finite Temperature Behavior of the Lattice Abelian Higgs Model"`;
the three anchored variants of `srxiv.py` all reject it. -/
theorem c2_universal_extractor :
    extract_author_and_title_universal banksCitation =
      some ("T. Banks and E. Rabinovici".data,
        "Finite Temperature Behavior of the Lattice Abelian Higgs Model".data) := by
  decide

/-! ## C10 : reachable failure of the joining loop -/

/-- C10.  Reference-block reassembly is not total: on the page text
`"[1] ab-\n\ncd"` the block contains a hyphen-ending line followed by an
empty line, `get_reftxt` evaluates `lines[j+1][0]` on the empty line,
and the embedding returns `none` (the Python code raises `IndexError`)
instead of producing a block string. -/
theorem c10_join_error_reachable :
    get_reftxt_from_text "[1] ab-\n\ncd".data 1 = none := by decide

/-! ## C6 : hyphen-unwrap policy of the joining loop -/

/-- Shifting the start index past a leading line. -/
theorem joinF_shift (l : List Char) (ls : List (List Char)) :
    ∀ fuel j, get_reftxt_joinF (l :: ls) (j + 1) fuel = get_reftxt_joinF ls j fuel := by
  intro fuel
  induction fuel with
  | zero => intro j; rfl
  | succ fuel ih =>
    intro j
    simp only [get_reftxt_joinF, List.get?_cons_succ, ih (j + 1)]

/-- C6, counterexample.  The line `"ab--"` ends in a hyphen and is
followed by the lowercase-starting line `"cd"`; the code strips *all*
trailing hyphens (`rstrip("-")`, line 57) and joins to `"abcd "`,
whereas stripping the single final hyphen as the claim states would
give `"ab-cd "`. -/
theorem c6_counterexample :
    get_reftxt_join ["ab--".data, "cd".data] 0 = some "abcd ".data ∧
    "abcd ".data ≠ "ab-cd ".data := by decide

/-- C6, amended.  On every block in which no hyphen-ending line is
followed by an empty line, the joining loop of `get_reftxt`
(lines 50-59) terminates and its result is described line by line: a
line ending in a hyphen whose following block line starts with an
uppercase character is kept verbatim and joined with no inserted space;
a line ending in a hyphen otherwise (also at the end of the block) has
*all* its trailing hyphens removed and is joined with no inserted
space; a line not ending in a hyphen is joined with a single trailing
space. -/
theorem c6_hyphen_unwrap : ∀ (lines : List (List Char)),
    noHyphenBeforeEmpty lines = true →
    get_reftxt_join lines 0 = some (claim_hyphen_join lines) := by
  intro lines
  induction lines with
  | nil => intro _; rfl
  | cons l ls ih =>
    cases ls with
    | nil =>
      intro _
      show get_reftxt_joinF [l] 0 1 = some (claim_hyphen_join [l])
      simp only [get_reftxt_joinF, List.get?, claim_hyphen_join]
      cases hb : (l.getLast? == some '-') with
      | true => simp [get_reftxt_joinF]
      | false => simp [get_reftxt_joinF]
    | cons l2 rest =>
      intro h
      simp only [noHyphenBeforeEmpty, Bool.and_eq_true] at h
      obtain ⟨h1, h2⟩ := h
      have IH : get_reftxt_joinF (l2 :: rest) 0 (rest.length + 1) =
          some (claim_hyphen_join (l2 :: rest)) := ih h2
      show get_reftxt_joinF (l :: l2 :: rest) 0 (rest.length + 1 + 1) =
        some (claim_hyphen_join (l :: l2 :: rest))
      have hs := joinF_shift l (l2 :: rest) (rest.length + 1) 0
      generalize hfuel : rest.length + 1 = fuel at IH hs
      simp only [get_reftxt_joinF, List.get?_cons_zero, List.get?_cons_succ,
        Nat.zero_add] at hs ⊢
      rw [hs, IH]
      cases hb : (l.getLast? == some '-') with
      | false => simp [claim_hyphen_join, hb]
      | true =>
        cases l2 with
        | nil => simp [hb] at h1
        | cons c cs =>
          cases hu : c.isUpper with
          | true => simp [claim_hyphen_join, hb, hu]
          | false => simp [claim_hyphen_join, hb, hu]

/-- C6, witness: the amended description evaluated on the block
`["A non-", "Hermitian sys-", "tem is nice."]` (an uppercase and a
lowercase continuation after a hyphen, and a plain final line). -/
theorem c6_witness :
    noHyphenBeforeEmpty ["A non-".data, "Hermitian sys-".data, "tem is nice.".data] = true ∧
    get_reftxt_join ["A non-".data, "Hermitian sys-".data, "tem is nice.".data] 0 =
      some (claim_hyphen_join ["A non-".data, "Hermitian sys-".data, "tem is nice.".data]) :=
  ⟨by decide, c6_hyphen_unwrap _ (by decide)⟩

/-! ## Stable descending sort: order, stability, permutation -/

/-- A prefix is a prefix of its own extension. -/
theorem startsWithL_append (p s : List Char) : startsWithL p (p ++ s) = true := by
  induction p with
  | nil => rfl
  | cons c cs ih => simp [startsWithL, ih]

/-- Membership in a stable insertion. -/
theorem mem_insortKey {α κ : Type} [LinearOrder κ] (key : α → κ) (x z : α)
    (l : List α) : z ∈ insortKey key x l ↔ z = x ∨ z ∈ l := by
  induction l with
  | nil => simp [insortKey]
  | cons y ys ih =>
    by_cases hxy : key x < key y
    · simp only [insortKey, if_pos hxy, List.mem_cons, ih]
      tauto
    · simp [insortKey, if_neg hxy]

/-- Stable insertion preserves the descending-by-key order. -/
theorem insortKey_pairwise {α κ : Type} [LinearOrder κ] (key : α → κ) (x : α)
    (l : List α) (hl : l.Pairwise (fun a b => key b ≤ key a)) :
    (insortKey key x l).Pairwise (fun a b => key b ≤ key a) := by
  induction l with
  | nil => simp [insortKey]
  | cons y ys ih =>
    rcases List.pairwise_cons.mp hl with ⟨hy, hys⟩
    by_cases hxy : key x < key y
    · simp only [insortKey, if_pos hxy]
      refine List.pairwise_cons.mpr ⟨?_, ih hys⟩
      intro z hz
      rcases (mem_insortKey key x z ys).mp hz with rfl | hzys
      · exact le_of_lt hxy
      · exact hy z hzys
    · simp only [insortKey, if_neg hxy]
      refine List.pairwise_cons.mpr ⟨?_, hl⟩
      intro z hz
      rcases List.mem_cons.mp hz with rfl | hzys
      · exact le_of_not_lt hxy
      · exact le_trans (hy z hzys) (le_of_not_lt hxy)

/-- The sort is descending by key. -/
theorem pySortedDesc_pairwise {α κ : Type} [LinearOrder κ] (key : α → κ)
    (l : List α) :
    (pySortedDesc key l).Pairwise (fun a b => key b ≤ key a) := by
  induction l with
  | nil => simp [pySortedDesc]
  | cons x xs ih => exact insortKey_pairwise key x _ ih

/-- Stable insertion is a permutation of consing. -/
theorem insortKey_perm {α κ : Type} [LinearOrder κ] (key : α → κ) (x : α)
    (l : List α) : List.Perm (insortKey key x l) (x :: l) := by
  induction l with
  | nil => exact List.Perm.refl _
  | cons y ys ih =>
    by_cases hxy : key x < key y
    · simp only [insortKey, if_pos hxy]
      exact (ih.cons y).trans (List.Perm.swap x y ys)
    · simp only [insortKey, if_neg hxy]
      exact List.Perm.refl _

/-- The sort is a permutation of its input. -/
theorem pySortedDesc_perm {α κ : Type} [LinearOrder κ] (key : α → κ)
    (l : List α) : List.Perm (pySortedDesc key l) l := by
  induction l with
  | nil => exact List.Perm.refl _
  | cons x xs ih => exact (insortKey_perm key x _).trans (ih.cons x)

/-- Filtering one key class through a stable insertion. -/
theorem filter_insortKey {α κ : Type} [LinearOrder κ] (key : α → κ) (c : κ)
    (x : α) (l : List α) :
    (insortKey key x l).filter (fun a => decide (key a = c)) =
      if key x = c then x :: l.filter (fun a => decide (key a = c))
      else l.filter (fun a => decide (key a = c)) := by
  induction l with
  | nil => simp only [insortKey, List.filter]; split <;> simp_all
  | cons y ys ih =>
    by_cases hxy : key x < key y
    · simp only [insortKey, if_pos hxy, List.filter_cons]
      by_cases hyc : key y = c
      · by_cases hxc : key x = c
        · exact absurd hxy (by rw [hxc, hyc]; exact lt_irrefl c)
        · simp [hyc, hxc, ih]
      · simp [hyc, ih]
    · simp only [insortKey, if_neg hxy, List.filter_cons]
      by_cases hxc : key x = c <;> simp [hxc]

/-- Stability: the sort does not reorder elements within one key
class. -/
theorem filter_pySortedDesc {α κ : Type} [LinearOrder κ] (key : α → κ)
    (c : κ) (l : List α) :
    (pySortedDesc key l).filter (fun a => decide (key a = c)) =
      l.filter (fun a => decide (key a = c)) := by
  induction l with
  | nil => rfl
  | cons x xs ih =>
    simp only [pySortedDesc, filter_insortKey, ih, List.filter_cons]
    by_cases hxc : key x = c <;> simp [hxc]

/-! ## C5 : query term ordering -/

/-- C5.  For every authors string and title, the built query term list
is the author-scoped terms followed by the title words (in findall
order, i.e. original text order); the author terms are ordered by
descending length and each carries the `au:` scope; and for the authors
string `"Y. Choi, B. C. Rayhaun, and Y. Zheng"` the author terms are
exactly `au:Rayhaun, au:Zheng, au:Choi` in that order. -/
theorem c5_query_term_order (authors title : List Char) :
    srxiv_query_terms authors title =
      srxiv_author_terms authors ++ word_pattern_findall title ∧
    (srxiv_author_terms authors).Pairwise (fun a b => b.length ≤ a.length) ∧
    (∀ w ∈ srxiv_author_terms authors, startsWithL "au:".data w = true) ∧
    srxiv_author_terms "Y. Choi, B. C. Rayhaun, and Y. Zheng".data =
      ["au:Rayhaun".data, "au:Zheng".data, "au:Choi".data] := by
  refine ⟨rfl, ?_, ?_, by decide⟩
  · apply List.pairwise_map.mpr
    have hp := pySortedDesc_pairwise (fun w : List Char => w.length)
      (word_pattern_findall authors)
    refine hp.imp ?_
    intro a b hab
    simp only [List.length_append]
    omega
  · intro w hw
    obtain ⟨v, _, rfl⟩ := List.mem_map.mp hw
    exact startsWithL_append _ _

/-- C5, witness: the universally quantified conjunct applied to the
concrete term `au:Rayhaun` of the Choi–Rayhaun–Zheng author string. -/
theorem c5_witness :
    "au:Rayhaun".data ∈ srxiv_author_terms "Y. Choi, B. C. Rayhaun, and Y. Zheng".data ∧
    startsWithL "au:".data "au:Rayhaun".data = true :=
  ⟨by decide,
    (c5_query_term_order "Y. Choi, B. C. Rayhaun, and Y. Zheng".data []).2.2.1 _ (by decide)⟩

/-! ## C7 : similarity scores and ranking -/

/-- The LCS length is at most the length of the left string. -/
theorem lcsLenF_le_left : ∀ (fuel : Nat) (a b : List Char),
    lcsLenF fuel a b ≤ a.length := by
  intro fuel
  induction fuel with
  | zero => intro a b; simp [lcsLenF]
  | succ fuel ih =>
    intro a b
    cases a with
    | nil => simp [lcsLenF]
    | cons x as =>
      cases b with
      | nil => simp [lcsLenF]
      | cons y bs =>
        simp only [lcsLenF, List.length_cons]
        by_cases h : (x == y) = true
        · simp only [if_pos h]
          have := ih as bs
          omega
        · simp only [if_neg h]
          have h1 := ih (x :: as) bs
          have h2 := ih as (y :: bs)
          simp only [List.length_cons] at h1
          exact Nat.max_le.mpr ⟨h1, Nat.le_trans h2 (Nat.le_succ _)⟩

/-- The LCS length is at most the length of the right string. -/
theorem lcsLenF_le_right : ∀ (fuel : Nat) (a b : List Char),
    lcsLenF fuel a b ≤ b.length := by
  intro fuel
  induction fuel with
  | zero => intro a b; simp [lcsLenF]
  | succ fuel ih =>
    intro a b
    cases a with
    | nil => simp [lcsLenF]
    | cons x as =>
      cases b with
      | nil => simp [lcsLenF]
      | cons y bs =>
        simp only [lcsLenF, List.length_cons]
        by_cases h : (x == y) = true
        · simp only [if_pos h]
          have := ih as bs
          omega
        · simp only [if_neg h]
          have h1 := ih (x :: as) bs
          have h2 := ih as (y :: bs)
          simp only [List.length_cons] at h2
          exact Nat.max_le.mpr ⟨Nat.le_trans h1 (Nat.le_succ _), h2⟩

/-- With enough fuel, the LCS of a string with itself is its length. -/
theorem lcsLenF_self : ∀ (fuel : Nat) (a : List Char),
    a.length ≤ fuel → lcsLenF fuel a a = a.length := by
  intro fuel
  induction fuel with
  | zero =>
    intro a ha
    have h0 : a = [] := List.eq_nil_of_length_eq_zero (Nat.le_zero.mp ha)
    subst h0
    rfl
  | succ fuel ih =>
    intro a ha
    cases a with
    | nil => rfl
    | cons x as =>
      simp only [lcsLenF, beq_self_eq_true, if_pos, List.length_cons]
      rw [ih as (by simpa using Nat.succ_le_succ_iff.mp ha)]

/-- Similarity scores are nonnegative. -/
theorem fuzz_ratio_nonneg (a b : List Char) : 0 ≤ fuzz_ratio a b := by
  unfold fuzz_ratio
  split
  · norm_num
  · positivity

/-- Similarity scores are at most 100. -/
theorem fuzz_ratio_le_100 (a b : List Char) : fuzz_ratio a b ≤ 100 := by
  unfold fuzz_ratio
  split
  · exact le_refl _
  · rename_i h
    have hd : (0 : ℚ) < (a.length : ℚ) + (b.length : ℚ) := by
      have : 0 < a.length + b.length := Nat.pos_of_ne_zero h
      exact_mod_cast this
    rw [div_le_iff₀ hd]
    have h1 : lcsLen a b ≤ a.length := lcsLenF_le_left _ _ _
    have h2 : lcsLen a b ≤ b.length := lcsLenF_le_right _ _ _
    have hle : 2 * lcsLen a b ≤ a.length + b.length := by omega
    have hle' : (2 : ℚ) * (lcsLen a b : ℚ) ≤ (a.length : ℚ) + (b.length : ℚ) := by
      exact_mod_cast hle
    linarith

/-- Identical strings score exactly 100. -/
theorem fuzz_ratio_self (a : List Char) : fuzz_ratio a a = 100 := by
  unfold fuzz_ratio
  split
  · rfl
  · rename_i h
    have hl : lcsLen a a = a.length := by
      unfold lcsLen
      exact lcsLenF_self (a.length + a.length) a (by omega)
    rw [hl]
    have h0 : (a.length : ℚ) ≠ 0 := by
      exact_mod_cast (by omega : a.length ≠ 0)
    field_simp
    ring

/-- C7.  For every target title and candidate list: each computed
similarity score lies between 0 and 100; a candidate whose title is
identical to the target scores exactly 100; the ranked output is sorted
in descending score order; and it is a permutation of the parsed feed
that preserves, within every score class, the repository's original
relative order (stability). -/
theorem c7_similarity_ranking (target : List Char) (feed : List RawEntry) :
    (∀ e ∈ search_by_authors_rank target feed,
      0 ≤ e.similarity_score ∧ e.similarity_score ≤ 100 ∧
        (e.title = target → e.similarity_score = 100)) ∧
    (search_by_authors_rank target feed).Pairwise
      (fun a b => b.similarity_score ≤ a.similarity_score) ∧
    List.Perm (search_by_authors_rank target feed)
      (feed.map (parse_entry target)) ∧
    (∀ c : ℚ,
      (search_by_authors_rank target feed).filter
          (fun e => decide (e.similarity_score = c)) =
        (feed.map (parse_entry target)).filter
          (fun e => decide (e.similarity_score = c))) := by
  refine ⟨?_, pySortedDesc_pairwise _ _, pySortedDesc_perm _ _,
    fun c => filter_pySortedDesc _ c _⟩
  intro e he
  have heM : e ∈ feed.map (parse_entry target) :=
    (pySortedDesc_perm (fun e : ArxivEntry => e.similarity_score) _).mem_iff.mp he
  obtain ⟨r, _, rfl⟩ := List.mem_map.mp heM
  refine ⟨fuzz_ratio_nonneg _ _, fuzz_ratio_le_100 _ _, ?_⟩
  intro ht
  have ht' : r.title = target := ht
  show fuzz_ratio target r.title = 100
  rw [ht']
  exact fuzz_ratio_self target

/-- C7, witness: the per-candidate conjunct applied to the identical
title candidate of a concrete two-candidate feed. -/
theorem c7_witness :
    parse_entry "ab".data ⟨"ab".data, [], "x/abs/1".data⟩ ∈
      search_by_authors_rank "ab".data
        [⟨"ab".data, [], "x/abs/1".data⟩, ⟨"q".data, [], "y".data⟩] ∧
    (0 ≤ (parse_entry "ab".data ⟨"ab".data, [], "x/abs/1".data⟩).similarity_score ∧
      (parse_entry "ab".data ⟨"ab".data, [], "x/abs/1".data⟩).similarity_score ≤ 100 ∧
      ((parse_entry "ab".data ⟨"ab".data, [], "x/abs/1".data⟩).title = "ab".data →
        (parse_entry "ab".data ⟨"ab".data, [], "x/abs/1".data⟩).similarity_score = 100)) := by
  have hmem : parse_entry "ab".data ⟨"ab".data, [], "x/abs/1".data⟩ ∈
      search_by_authors_rank "ab".data
        [⟨"ab".data, [], "x/abs/1".data⟩, ⟨"q".data, [], "y".data⟩] :=
    (pySortedDesc_perm (fun e : ArxivEntry => e.similarity_score) _).mem_iff.mpr
      (List.mem_map.mpr ⟨_, List.mem_cons_self _ _, rfl⟩)
  exact ⟨hmem,
    (c7_similarity_ranking "ab".data
      [⟨"ab".data, [], "x/abs/1".data⟩, ⟨"q".data, [], "y".data⟩]).1 _ hmem⟩

/-! ## C8 : idempotence of the fetch step -/

/-- C8.  For every filesystem, network oracle and candidate: if the
destination file already exists, the fetch step issues no request and
leaves the filesystem untouched (the existing artifact is opened
directly); and after one fetch of a valid PDF, a second fetch of the
same candidate issues no request and changes nothing.  The same holds
for `download_pdf_and_view` of `search_arxiv.py` for any URL and
destination filename. -/
theorem c8_fetch_idempotent (fs : FS)
    (net : List Char → Except (List Char) (List Char)) (e : FEntry) :
    ((fs (dl_filename e)).isSome = true →
      dl_open_pdf fs net e = { fs := fs, requested := false, result := .ok () }) ∧
    (∀ content, net (pdf_url_of e) = .ok content →
      startsWithL "%PDF".data content = true →
      (dl_open_pdf (dl_open_pdf fs net e).fs net e).requested = false ∧
      (dl_open_pdf (dl_open_pdf fs net e).fs net e).fs = (dl_open_pdf fs net e).fs) ∧
    (∀ url filename,
      ((fs filename).isSome = true →
        download_pdf_and_view fs net url filename =
          { fs := fs, requested := false, result := .ok () }) ∧
      (∀ content, net url = .ok content →
        (download_pdf_and_view (download_pdf_and_view fs net url filename).fs
            net url filename).requested = false)) := by
  refine ⟨?_, ?_, ?_⟩
  · intro h
    simp [dl_open_pdf, h]
  · intro content hnet hpdf
    by_cases hex : (fs (dl_filename e)).isSome = true
    · simp [dl_open_pdf, hex]
    · have hex' : (fs (dl_filename e)).isSome = false :=
        Bool.eq_false_iff.mpr hex
      simp [dl_open_pdf, hex', hnet, hpdf, fsUpdate]
  · intro url filename
    refine ⟨fun h => by simp [download_pdf_and_view, h], fun content hnet => ?_⟩
    by_cases hex : (fs filename).isSome = true
    · simp [download_pdf_and_view, hex]
    · have hex' : (fs filename).isSome = false := Bool.eq_false_iff.mpr hex
      simp [download_pdf_and_view, hex', hnet, fsUpdate]

/-- C8, witness: the second-call conjunct at a concrete entry, an empty
filesystem and a network oracle returning a valid PDF. -/
theorem c8_witness :
    wNet (pdf_url_of wEntry) = .ok "%PDFxyz".data ∧
    startsWithL "%PDF".data "%PDFxyz".data = true ∧
    ((dl_open_pdf (dl_open_pdf wFS0 wNet wEntry).fs wNet wEntry).requested = false ∧
     (dl_open_pdf (dl_open_pdf wFS0 wNet wEntry).fs wNet wEntry).fs =
       (dl_open_pdf wFS0 wNet wEntry).fs) :=
  ⟨rfl, by decide, (c8_fetch_idempotent wFS0 wNet wEntry).2.1 _ rfl (by decide)⟩

/-! ## C9 : rejected downloads leave the filesystem unchanged -/

/-- C9.  Whenever the fetched byte stream does not begin with `%PDF`,
`dl_open_pdf` raises the invalid-PDF error instead of accepting the
download, and nothing is written: the filesystem is unchanged, in
particular still empty at the destination filename. -/
theorem c9_invalid_magic (fs : FS)
    (net : List Char → Except (List Char) (List Char)) (e : FEntry)
    (content : List Char)
    (hnof : fs (dl_filename e) = none)
    (hnet : net (pdf_url_of e) = .ok content)
    (hmagic : startsWithL "%PDF".data content = false) :
    (dl_open_pdf fs net e).result =
      .error "Downloaded content is not a valid PDF.".data ∧
    (dl_open_pdf fs net e).fs (dl_filename e) = none ∧
    (dl_open_pdf fs net e).fs = fs := by
  simp [dl_open_pdf, hnof, hnet, hmagic]

/-- C9, witness: the theorem at a concrete entry, an empty filesystem
and a network oracle returning bytes without the magic header. -/
theorem c9_witness :
    wFS0 (dl_filename wEntry) = none ∧
    wNetBad (pdf_url_of wEntry) = .ok "oops".data ∧
    startsWithL "%PDF".data "oops".data = false ∧
    ((dl_open_pdf wFS0 wNetBad wEntry).result =
        .error "Downloaded content is not a valid PDF.".data ∧
      (dl_open_pdf wFS0 wNetBad wEntry).fs (dl_filename wEntry) = none ∧
      (dl_open_pdf wFS0 wNetBad wEntry).fs = wFS0) :=
  ⟨rfl, rfl, by decide,
    c9_invalid_magic wFS0 wNetBad wEntry "oops".data rfl rfl (by decide)⟩

/-! ## C4 : author-scoped query terms -/

/-- A `takeWhile` that cannot continue into the appended tail. -/
theorem takeWhile_blocked (p : Char → Bool) (xs ys : List Char)
    (hys : ys.takeWhile p = []) :
    (xs ++ ys).takeWhile p = xs.takeWhile p := by
  induction xs with
  | nil => simpa using hys
  | cons x xs ih =>
    by_cases hx : p x = true
    · simp [List.takeWhile_cons, hx, ih]
    · simp [List.takeWhile_cons, hx]

/-- An explicit occurrence makes `hasSubstr` true. -/
theorem hasSubstr_of_append (pat pre post : List Char) :
    hasSubstr pat (pre ++ pat ++ post) = true := by
  induction pre with
  | nil =>
    show hasSubstr pat ([] ++ pat ++ post) = true
    rw [List.nil_append]
    cases h : pat ++ post with
    | nil =>
      have hp : pat = [] := by cases pat <;> simp_all
      have hq : post = [] := by cases post <;> simp_all
      subst hp; subst hq
      rfl
    | cons c cs =>
      simp only [hasSubstr, Bool.or_eq_true]
      left
      rw [← h]
      exact startsWithL_append pat post
  | cons x xs ih =>
    simp only [List.cons_append, hasSubstr, Bool.or_eq_true]
    right
    simpa using ih

/-- A tail that blocks separator fragments from spilling over: the
empty tail or a tail starting with a comma. -/
def blockedTail (w : List Char) : Prop := w = [] ∨ ∃ w', w = ',' :: w'

/-- A blocked tail has no leading whitespace. -/
theorem blockedTail_takeWhile {w : List Char} (hw : blockedTail w) :
    w.takeWhile isWS = [] := by
  rcases hw with rfl | ⟨w', rfl⟩
  · rfl
  · simp [List.takeWhile_cons, isWS]

/-- `startsWithL p` fails on a blocked tail when `p` starts with a
character other than a comma. -/
theorem startsWithL_and_blocked {w : List Char} (hw : blockedTail w)
    (p : List Char) (c : Char) (hc : ¬(c = ',')) :
    startsWithL (c :: p) w = false := by
  rcases hw with rfl | ⟨w', rfl⟩
  · rfl
  · simp [startsWithL, hc]

/-- `sepLen` finds no separator while the scan is still inside a clean
name, whatever blocked tail follows. -/
theorem sepLen_none_of_clean (v w : List Char)
    (hv : v ≠ [])
    (hc : ∀ c ∈ v, ¬(c = ','))
    (hws : ∀ c ∈ v, isWS c = true → c = ' ')
    (hand : hasSubstr " and ".data v = false)
    (hw : blockedTail w) :
    sepLen (v ++ w) = none := by
  have hdata : " and ".data = ' ' :: 'a' :: 'n' :: 'd' :: [' '] := rfl
  have hhd : ¬((v ++ w).head? = some ',') := by
    cases v with
    | nil => exact absurd rfl hv
    | cons c v₀ =>
      simp only [List.cons_append, List.head?_cons]
      intro h
      exact hc c (List.mem_cons_self _ _) (Option.some.inj h)
  unfold sepLen
  rw [if_neg hhd]
  have htw : (v ++ w).takeWhile isWS = v.takeWhile isWS :=
    takeWhile_blocked _ _ _ (blockedTail_takeWhile hw)
  unfold sepLenAnd
  rw [htw]
  by_cases hrune : v.takeWhile isWS = []
  case pos => rw [hrune]; rfl
  case neg =>
    rw [if_neg (by simpa using hrune)]
    have hdropped : (v ++ w).drop (v.takeWhile isWS).length =
        v.dropWhile isWS ++ w := by
      conv_lhs =>
        rw [show v ++ w = v.takeWhile isWS ++ (v.dropWhile isWS ++ w) from by
          rw [← List.append_assoc, List.takeWhile_append_dropWhile]]
      rw [List.drop_left]
    rw [hdropped]
    have hrunsp : ∀ x ∈ v.takeWhile isWS, x = ' ' := fun x hx =>
      hws x ((List.takeWhile_sublist _).subset hx) (List.mem_takeWhile_imp hx)
    have hv'sub : ∀ x ∈ v.dropWhile isWS, x ∈ v := fun x hx =>
      (List.dropWhile_sublist _).subset hx
    have hvrv : v.takeWhile isWS ++ v.dropWhile isWS = v :=
      List.takeWhile_append_dropWhile isWS v
    set run := v.takeWhile isWS with hrundef
    set v' := v.dropWhile isWS with hv'def
    clear_value run v'
    by_cases hstart : startsWithL "and".data (v' ++ w) = true
    case neg => rw [if_neg hstart]
    case pos =>
      rw [if_pos hstart]
      have handata : "and".data = ['a', 'n', 'd'] := rfl
      obtain ⟨v3, rfl⟩ : ∃ v3, v' = 'a' :: 'n' :: 'd' :: v3 := by
        cases v' with
        | nil =>
          rw [List.nil_append, handata,
            startsWithL_and_blocked hw ['n', 'd'] 'a' (by decide)] at hstart
          exact absurd hstart (by simp)
        | cons d1 v1 =>
          cases v1 with
          | nil =>
            simp only [handata, List.cons_append, List.nil_append,
              List.append_eq, startsWithL, Bool.and_eq_true,
              beq_iff_eq] at hstart
            rw [startsWithL_and_blocked hw ['d'] 'n' (by decide)] at hstart
            exact absurd hstart.2 (by simp)
          | cons d2 v2 =>
            cases v2 with
            | nil =>
              simp only [handata, List.cons_append, List.nil_append,
                List.append_eq, startsWithL, Bool.and_eq_true,
                beq_iff_eq] at hstart
              rw [startsWithL_and_blocked hw [] 'd' (by decide)] at hstart
              exact absurd hstart.2.2 (by simp)
            | cons d3 v3 =>
              simp only [handata, List.cons_append, startsWithL,
                Bool.and_eq_true, beq_iff_eq] at hstart
              exact ⟨v3, by rw [← hstart.1, ← hstart.2.1, ← hstart.2.2.1]⟩
      rw [show (('a' :: 'n' :: 'd' :: v3) ++ w).drop 3 = v3 ++ w from by simp]
      rw [takeWhile_blocked _ _ _ (blockedTail_takeWhile hw)]
      cases v3 with
      | nil => rfl
      | cons e v4 =>
        by_cases he : isWS e = true
        case neg => simp [List.takeWhile_cons, he]
        case pos =>
          exfalso
          have hesp : e = ' ' := by
            refine hws e ?_ he
            rw [← hvrv]
            simp
          have hrne : run ≠ [] := hrune
          have hlast : run.getLast hrne = ' ' := hrunsp _ (List.getLast_mem hrne)
          have hdecomp : run = run.dropLast ++ [' '] := by
            conv_lhs => rw [← List.dropLast_append_getLast hrne]
            rw [hlast]
          have hveq : v = run.dropLast ++ " and ".data ++ v4 := by
            calc v = run ++ ('a' :: 'n' :: 'd' :: e :: v4) := hvrv.symm
              _ = (run.dropLast ++ [' ']) ++ ('a' :: 'n' :: 'd' :: ' ' :: v4) := by
                  rw [← hdecomp, hesp]
              _ = run.dropLast ++ " and ".data ++ v4 := by
                  rw [hdata]
                  simp only [List.append_assoc, List.cons_append,
                    List.nil_append]
          rw [hveq, hasSubstr_of_append] at hand
          exact absurd hand (by simp)

/-- The splitter never returns an empty field list. -/
theorem pySplitSepF_ne_nil : ∀ (fuel : Nat) (s : List Char),
    pySplitSepF fuel s ≠ [] := by
  intro fuel
  induction fuel with
  | zero => intro s; simp [pySplitSepF]
  | succ fuel ih =>
    intro s
    cases s with
    | nil => simp [pySplitSepF]
    | cons c cs =>
      simp only [pySplitSepF]
      cases sepLen (c :: cs) with
      | some k => simp
      | none =>
        cases h : pySplitSepF fuel cs with
        | nil => simp
        | cons f fs => simp

/-- The splitter on the empty string. -/
theorem pySplitSepF_nil : ∀ (fuel : Nat), pySplitSepF fuel [] = [[]] := by
  intro fuel
  cases fuel <;> rfl

/-- A whole clean name is consumed into the current field. -/
theorem pySplitSepF_field (v w : List Char) : ∀ (fuel : Nat),
    (v ++ w).length ≤ fuel →
    (∀ c ∈ v, ¬(c = ',')) →
    (∀ c ∈ v, isWS c = true → c = ' ') →
    hasSubstr " and ".data v = false →
    blockedTail w →
    pySplitSepF fuel (v ++ w) =
      (match pySplitSepF (fuel - v.length) w with
       | f :: fs => (v ++ f) :: fs
       | [] => [v]) := by
  induction v with
  | nil =>
    intro fuel _ _ _ _ _
    simp only [List.nil_append, List.length_nil, Nat.sub_zero]
    cases h : pySplitSepF fuel w with
    | nil => exact absurd h (pySplitSepF_ne_nil fuel w)
    | cons f fs => simp
  | cons c v₀ ih =>
    intro fuel hfuel hc hws hand hw
    cases fuel with
    | zero => simp at hfuel
    | succ fuel =>
      have hnone : sepLen (c :: (v₀ ++ w)) = none := by
        have := sepLen_none_of_clean (c :: v₀) w (by simp) hc hws hand hw
        rwa [List.cons_append] at this
      have hand₀ : hasSubstr " and ".data v₀ = false := by
        have h' := hand
        simp only [hasSubstr, Bool.or_eq_false_iff] at h'
        exact h'.2
      have hrec := ih fuel (by simp at hfuel ⊢; omega)
        (fun x hx => hc x (List.mem_cons_of_mem c hx))
        (fun x hx => hws x (List.mem_cons_of_mem c hx)) hand₀ hw
      show pySplitSepF (fuel + 1) ((c :: v₀) ++ w) = _
      rw [List.cons_append]
      simp only [pySplitSepF, hnone, hrec]
      have hlen : fuel + 1 - (c :: v₀).length = fuel - v₀.length := by
        simp only [List.length_cons]
        omega
      rw [hlen]
      cases h : pySplitSepF (fuel - v₀.length) w with
      | nil => exact absurd h (pySplitSepF_ne_nil _ w)
      | cons f fs => simp

/-- The separator `", "` before a name is consumed as a field cut. -/
theorem pySplitSepF_comma_space (rest : List Char) (fuel : Nat)
    (hr : rest.takeWhile isWS = []) :
    pySplitSepF (fuel + 1) (',' :: ' ' :: rest) = [] :: pySplitSepF fuel rest := by
  have hsep : sepLen (',' :: ' ' :: rest) = some 2 := by
    unfold sepLen sepLenComma
    rw [if_pos (show (',' :: ' ' :: rest).head? = some ',' from rfl)]
    show (if ((' ' :: rest).takeWhile isWS).isEmpty = true then none
      else some (1 + ((' ' :: rest).takeWhile isWS).length)) = some 2
    rw [show (' ' :: rest).takeWhile isWS = ' ' :: rest.takeWhile isWS from by
      simp [List.takeWhile_cons, isWS]]
    rw [hr]
    rfl
  simp only [pySplitSepF, hsep]
  rfl

/-- The components of a clean name. -/
theorem cleanName_spec {nm : List Char} (h : cleanName nm = true) :
    nm ≠ [] ∧ (∀ c ∈ nm, ¬(c = ',')) ∧ (∀ c ∈ nm, isWS c = true → c = ' ') ∧
      hasSubstr " and ".data nm = false ∧
      (∀ c, nm.head? = some c → isWS c = false) ∧ pyStrip nm = nm := by
  simp only [cleanName, Bool.and_eq_true, Bool.not_eq_true', List.all_eq_true,
    Bool.or_eq_true, beq_iff_eq, beq_eq_false_iff_ne, ne_eq,
    List.isEmpty_eq_false] at h
  obtain ⟨⟨⟨⟨hne, hall⟩, hhd⟩, hlast⟩, hand⟩ := h
  have hc : ∀ c ∈ nm, ¬(c = ',') := fun c hx => (hall c hx).1
  have hws : ∀ c ∈ nm, isWS c = true → c = ' ' := by
    intro c hx hcw
    rcases (hall c hx).2 with h' | h'
    · exact absurd hcw (by simp [h'])
    · exact h'
  obtain ⟨c0, t0, rfl⟩ : ∃ c0 t0, nm = c0 :: t0 := by
    cases nm with
    | nil => exact absurd rfl hne
    | cons a b => exact ⟨a, b, rfl⟩
  have hhd' : ∀ c, (c0 :: t0).head? = some c → isWS c = false := by
    intro c hcq
    have hcc : c = c0 := by simpa using hcq.symm
    subst hcc
    by_contra hcw
    have := hws c (List.mem_cons_self _ _) (by simpa using hcw)
    exact hhd (by simpa [List.headI] using this)
  refine ⟨hne, hc, hws, hand, hhd', ?_⟩
  -- strip is the identity on a clean name
  have hfront : (c0 :: t0).dropWhile isWS = c0 :: t0 := by
    rw [List.dropWhile_cons, if_neg (by simp [hhd' c0 rfl])]
  have hlastch : isWS ((c0 :: t0).getLast (by simp)) = false := by
    have hmem := List.getLast_mem (l := c0 :: t0) (by simp)
    by_contra hcw
    have hsp := hws _ hmem (by simpa using hcw)
    have : (c0 :: t0).getLastD ' ' = (c0 :: t0).getLast (by simp) :=
      List.getLastD_eq_getLast? .. ▸ by
        rw [List.getLast?_eq_getLast (c0 :: t0) (by simp)]
        rfl
    exact hlast (by rw [this, hsp])
  have hback : (c0 :: t0).reverse.dropWhile isWS = (c0 :: t0).reverse := by
    have hh : (c0 :: t0).reverse.head? = some ((c0 :: t0).getLast (by simp)) := by
      rw [List.head?_reverse]
      exact (List.getLast?_eq_getLast _ _).symm ▸ rfl
    cases hrv : (c0 :: t0).reverse with
    | nil => rfl
    | cons r rs =>
      rw [hrv] at hh
      have : r = (c0 :: t0).getLast (by simp) := by simpa using hh
      rw [List.dropWhile_cons, if_neg (by rw [this]; simp [hlastch])]
  show pyStrip (c0 :: t0) = c0 :: t0
  unfold pyStrip
  rw [hfront, hback, List.reverse_reverse]

/-- Splitting the `", "`-joined list of clean names recovers the
names. -/
theorem pySplitSepF_pyJoin (names : List (List Char)) :
    ∀ (fuel : Nat), (∀ nm ∈ names, cleanName nm = true) → names ≠ [] →
    (pyJoin ", ".data names).length ≤ fuel →
    pySplitSepF fuel (pyJoin ", ".data names) = names := by
  induction names with
  | nil => intro fuel _ hne _; exact absurd rfl hne
  | cons nm rest ih =>
    intro fuel hclean _ hfuel
    obtain ⟨hnme, hc, hws, hand, hhd, _⟩ :=
      cleanName_spec (hclean nm (List.mem_cons_self _ _))
    cases rest with
    | nil =>
      have hj : pyJoin ", ".data [nm] = nm ++ [] := by simp [pyJoin]
      rw [hj] at hfuel ⊢
      rw [pySplitSepF_field nm [] fuel hfuel hc hws hand (Or.inl rfl)]
      rw [pySplitSepF_nil]
      simp
    | cons nm2 rest2 =>
      have hj : pyJoin ", ".data (nm :: nm2 :: rest2) =
          nm ++ (',' :: ' ' :: pyJoin ", ".data (nm2 :: rest2)) := by
        show nm ++ ", ".data ++ pyJoin ", ".data (nm2 :: rest2) = _
        rw [List.append_assoc]
        rfl
      rw [hj] at hfuel ⊢
      rw [pySplitSepF_field nm (',' :: ' ' :: pyJoin ", ".data (nm2 :: rest2))
        fuel hfuel hc hws hand (Or.inr ⟨_, rfl⟩)]
      have hlen : (nm ++ (',' :: ' ' :: pyJoin ", ".data (nm2 :: rest2))).length =
          nm.length + ((pyJoin ", ".data (nm2 :: rest2)).length + 2) := by
        simp
      obtain ⟨f', hf'⟩ : ∃ f', fuel - nm.length = f' + 1 := by
        refine ⟨fuel - nm.length - 1, ?_⟩
        rw [hlen] at hfuel
        omega
      -- the head of the joined tail is the head of a clean name
      obtain ⟨s2, hs2⟩ : ∃ s2, pyJoin ", ".data (nm2 :: rest2) = nm2 ++ s2 := by
        cases rest2 with
        | nil => exact ⟨[], by simp [pyJoin]⟩
        | cons nm3 rest3 =>
          exact ⟨", ".data ++ pyJoin ", ".data (nm3 :: rest3), by
            show pyJoin ", ".data (nm2 :: nm3 :: rest3) = _
            rw [← List.append_assoc]
            rfl⟩
      obtain ⟨hnme2, _, _, _, hhd2, _⟩ :=
        cleanName_spec (hclean nm2 (List.mem_cons_of_mem _ (List.mem_cons_self _ _)))
      have htw2 : (pyJoin ", ".data (nm2 :: rest2)).takeWhile isWS = [] := by
        rw [hs2]
        cases hmm : nm2 with
        | nil => exact absurd hmm hnme2
        | cons c2 t2 =>
          rw [List.cons_append, List.takeWhile_cons]
          rw [if_neg (by simp [hhd2 c2 (by rw [hmm]; rfl)])]
      rw [hf', pySplitSepF_comma_space _ f' htw2]
      have hfuel2 : (pyJoin ", ".data (nm2 :: rest2)).length ≤ f' := by
        rw [hlen] at hfuel
        omega
      rw [ih f' (fun x hx => hclean x (List.mem_cons_of_mem _ hx)) (by simp) hfuel2]
      simp

/-- Splitting the `", "`-joined list of clean names recovers the
names (top level). -/
theorem pySplitSep_pyJoin (names : List (List Char))
    (h : ∀ nm ∈ names, cleanName nm = true) (hne : names ≠ []) :
    pySplitSep (pyJoin ", ".data names) = names :=
  pySplitSepF_pyJoin names _ h hne (Nat.le_refl _)

/-- C4, counterexample.  For the parsed citation
`"Thomas Banks, Great Theory, Nucl. Phys, B (1999)."` (no external
identifier), `request_arxiv` emits the author-scoped terms
`au:Thomas au:Banks`: the spelled-out first name `Thomas`, a
multi-character non-final token, contributes a term, which the claim
says never happens (it requires exactly `au:Banks`). -/
theorem c4_counterexample :
    request_arxiv_query thomasCitation =
      RequestQuery.byTerms
        ["au:Thomas".data, "au:Banks".data, "Great".data, "Theory".data] ∧
    ¬(["au:Thomas".data, "au:Banks".data] = ["au:Banks".data]) := by decide

/-- C4, amended.  In `srxiv.py`, the author-scoped terms are one per
alphanumeric word of length at least 2 of the authors string (excluding
`and`/`And`), so spelled-out non-final name parts contribute terms
(`"Thomas Banks"` yields `au:Thomas au:Banks`).  In `search_arxiv.py`,
`_build_author_query` does recover one term per author name — splitting
on `,\s+`/`\s+and\s+` inverts `", "`-joining for clean names — and each
term is the name's last space-delimited token, but single-character
tokens are *not* discarded (`"A. B"` yields `au:B`). -/
theorem c4_author_terms (names : List (List Char))
    (hclean : ∀ nm ∈ names, cleanName nm = true) :
    build_author_query (pyJoin ", ".data names) =
      pyJoin " AND ".data (names.map (fun nm => "au:".data ++ lastSpaceTok nm)) ∧
    build_author_query "A. B".data = "au:B".data ∧
    srxiv_author_terms "Thomas Banks".data =
      ["au:Thomas".data, "au:Banks".data] := by
  refine ⟨?_, by decide, by decide⟩
  cases names with
  | nil => rfl
  | cons nm rest =>
    unfold build_author_query
    rw [pySplitSep_pyJoin _ hclean (by simp)]
    have hmap : (nm :: rest).map pyStrip = nm :: rest :=
      (List.map_congr_left
        (fun x hx => (cleanName_spec (hclean x hx)).2.2.2.2.2)).trans
        (List.map_id _)
    rw [hmap, List.filter_eq_self.mpr (fun a ha => by
      simpa using (cleanName_spec (hclean a ha)).1)]

/-- C4, witness: the amended statement applied to the clean name list
`["Y. Choi", "B. C. Rayhaun", "Y. Zheng"]`. -/
theorem c4_witness :
    (∀ nm ∈ ["Y. Choi".data, "B. C. Rayhaun".data, "Y. Zheng".data],
      cleanName nm = true) ∧
    (build_author_query
        (pyJoin ", ".data ["Y. Choi".data, "B. C. Rayhaun".data, "Y. Zheng".data]) =
      pyJoin " AND ".data
        (["Y. Choi".data, "B. C. Rayhaun".data, "Y. Zheng".data].map
          (fun nm => "au:".data ++ lastSpaceTok nm)) ∧
     build_author_query "A. B".data = "au:B".data ∧
     srxiv_author_terms "Thomas Banks".data =
       ["au:Thomas".data, "au:Banks".data]) :=
  ⟨by decide,
    c4_author_terms ["Y. Choi".data, "B. C. Rayhaun".data, "Y. Zheng".data]
      (by decide)⟩

/-! ## C3 : the quoted-title grammar variant -/

/-- In `t ++ ',' :: '"' :: ' ' :: src` with `t` and `src` free of the
marked characters, a marked character can only sit at position
`t.length + 1` (the quote). -/
theorem Y_quote_pos (t src : List Char) (P : Char → Bool)
    (htq : ∀ c ∈ t, P c = false) (hsq : ∀ c ∈ src, P c = false)
    (hcm : P ',' = false) (hsp : P ' ' = false) :
    ∀ m q, (t ++ ',' :: '"' :: ' ' :: src).get? m = some q → P q = true →
      m = t.length + 1 := by
  intro m q hget hq
  by_cases hlt : m < t.length
  · rw [List.get?_append hlt] at hget
    exact absurd hq (by simp [htq q (List.get?_mem hget)])
  · push_neg at hlt
    rw [List.get?_append_right hlt] at hget
    cases hk : m - t.length with
    | zero =>
      rw [hk] at hget
      have hqe : q = ',' := by simpa using hget.symm
      rw [hqe] at hq
      exact absurd hq (by simp [hcm])
    | succ k1 =>
      cases k1 with
      | zero => omega
      | succ k2 =>
        cases k2 with
        | zero =>
          rw [hk] at hget
          have hqe : q = ' ' := by simpa [List.get?] using hget.symm
          rw [hqe] at hq
          exact absurd hq (by simp [hsp])
        | succ k3 =>
          rw [hk] at hget
          have hsrc' : src.get? k3 = some q := by
            simpa [List.get?] using hget
          exact absurd hq (by simp [hsq q (List.get?_mem hsrc')])

/-- In the full quoted shape, a marked character can only sit at the
opening-quote position `a.length + 2` or the closing-quote position
`a.length + 3 + (t.length + 1)`. -/
theorem s_quote_pos (a t src : List Char) (P : Char → Bool)
    (haq : ∀ c ∈ a, P c = false) (htq : ∀ c ∈ t, P c = false)
    (hsq : ∀ c ∈ src, P c = false) (hcm : P ',' = false) (hsp : P ' ' = false) :
    ∀ m q,
      (a ++ ',' :: ' ' :: '"' :: (t ++ ',' :: '"' :: ' ' :: src)).get? m = some q →
      P q = true → m = a.length + 2 ∨ m = a.length + 3 + (t.length + 1) := by
  intro m q hget hq
  by_cases hlt : m < a.length
  · rw [List.get?_append hlt] at hget
    exact absurd hq (by simp [haq q (List.get?_mem hget)])
  · push_neg at hlt
    rw [List.get?_append_right hlt] at hget
    cases hk : m - a.length with
    | zero =>
      rw [hk] at hget
      have hqe : q = ',' := by simpa using hget.symm
      rw [hqe] at hq
      exact absurd hq (by simp [hcm])
    | succ k1 =>
      cases k1 with
      | zero =>
        rw [hk] at hget
        have hqe : q = ' ' := by simpa [List.get?] using hget.symm
        rw [hqe] at hq
        exact absurd hq (by simp [hsp])
      | succ k2 =>
        cases k2 with
        | zero => left; omega
        | succ k3 =>
          rw [hk] at hget
          have hy : (t ++ ',' :: '"' :: ' ' :: src).get? k3 = some q := by
            simpa [List.get?] using hget
          have := Y_quote_pos t src P htq hsq hcm hsp k3 q hy hq
          right
          omega

/-- The comma before the closing quote sits at `a.length + 3 + t.length`. -/
theorem s_comma_pos (a t src : List Char) :
    (a ++ ',' :: ' ' :: '"' :: (t ++ ',' :: '"' :: ' ' :: src)).get?
      (a.length + 3 + t.length) = some ',' := by
  rw [List.get?_append_right (by omega)]
  rw [show a.length + 3 + t.length - a.length = t.length + 3 from by omega]
  show (',' :: ' ' :: '"' :: (t ++ ',' :: '"' :: ' ' :: src)).get?
    (t.length + 3) = some ','
  rw [show t.length + 3 = (t.length + 2) + 1 from rfl, List.get?_cons_succ,
    show t.length + 2 = (t.length + 1) + 1 from rfl, List.get?_cons_succ,
    show t.length + 1 = t.length + 1 from rfl, List.get?_cons_succ,
    List.get?_append_right (Nat.le_refl _)]
  simp

/-- The greedy title loop of `refpat[0]` extracts exactly `t` from
`t ++ ",\" " ++ src` when `t` and `src` carry no quotes, `t` has no
newline, and `src` matches the journal/year sub-grammar. -/
theorem refpat0Title_at (t src : List Char)
    (htq : noQuote t) (htn : noNl t) (hsq : noQuote src)
    (hjnl : jnlMatch src = true) :
    refpat0Title (t ++ ',' :: '"' :: ' ' :: src) = some t := by
  unfold refpat0Title
  have h1 : t.length ≤ (t ++ ',' :: '"' :: ' ' :: src).length := by simp
  have h2 : refpat0TitleCheck (t ++ ',' :: '"' :: ' ' :: src) t.length = some t := by
    unfold refpat0TitleCheck
    rw [List.drop_left, List.take_left]
    have hcond : (',' == ',' && isCloseQ '"' && isWS ' ' && t.all isDotC &&
        jnlMatch src) = true := by
      rw [List.all_eq_true.mpr htn, hjnl]
      decide
    simp only [hcond, if_pos]
  have h3 : ∀ m, t.length < m → m ≤ (t ++ ',' :: '"' :: ' ' :: src).length →
      refpat0TitleCheck (t ++ ',' :: '"' :: ' ' :: src) m = none := by
    intro m hm _
    unfold refpat0TitleCheck
    cases hd : (t ++ ',' :: '"' :: ' ' :: src).drop m with
    | nil => rfl
    | cons c1 r1 =>
      cases r1 with
      | nil => rfl
      | cons q r2 =>
        cases r2 with
        | nil => rfl
        | cons w rest =>
          have hqget : (t ++ ',' :: '"' :: ' ' :: src).get? (m + 1) = some q := by
            have hq1 : ((t ++ ',' :: '"' :: ' ' :: src).drop m).get? 1 = some q := by
              rw [hd]; rfl
            rwa [List.get?_drop] at hq1
          by_cases hcq : isCloseQ q = true
          · exfalso
            have := Y_quote_pos t src isCloseQ
              (fun c hc => (htq c hc).2) (fun c hc => (hsq c hc).2)
              (by decide) (by decide) (m + 1) q hqget hcq
            omega
          · simp [hcq]
  exact downFirst_eq_some h1 h2 h3

/-- C3, counterexample.  On the concrete citation
`A. Author, "Nice Title", J. Phys, B (2020).` — exactly the shape the
spec writes, with the comma after the closing quote, and with a source
part that matches the journal/year sub-grammar — the first grammar
variant does not match at all: its regex demands the comma *before*
the closing quote (`,(”|")`). -/
theorem c3_counterexample :
    refpat0Match quotedSpecShape = none ∧
    jnlMatch "J. Phys, B (2020).".data = true ∧
    quotedSpecShape =
      quotedCommaOutside "A. Author".data "Nice Title".data
        "J. Phys, B (2020).".data := by decide

/-- C3, amended.  For every citation text of the quoted-title shape
`<authors>, "<title>," <source>` — with the comma *before* the closing
quote, as the regex `,(”|")` expects, rather than after it as the spec
writes — whose parts contain no quote characters, whose authors and
title contain no newline, and whose source part matches the
journal/year sub-grammar, the first (quoted-title) grammar variant
matches and extracts exactly that title (and exactly those authors). -/
theorem c3_quoted_title (a t src : List Char)
    (haq : noQuote a) (han : noNl a) (htq : noQuote t) (htn : noNl t)
    (hsq : noQuote src) (hjnl : jnlMatch src = true) :
    refpat0Match (quotedCommaInside a t src) = some (a, t) := by
  have hform : quotedCommaInside a t src =
      a ++ ',' :: ' ' :: '"' :: (t ++ ',' :: '"' :: ' ' :: src) := by
    show a ++ ", \"".data ++ t ++ ",\" ".data ++ src = _
    rw [show ", \"".data = [',', ' ', '"'] from rfl,
      show ",\" ".data = [',', '"', ' '] from rfl]
    simp
  rw [hform]
  unfold refpat0Match
  have h1 : a.length ≤ (a ++ ',' :: ' ' :: '"' ::
      (t ++ ',' :: '"' :: ' ' :: src)).length := by simp
  have h2 : refpat0Check (a ++ ',' :: ' ' :: '"' ::
      (t ++ ',' :: '"' :: ' ' :: src)) a.length = some (a, t) := by
    unfold refpat0Check
    rw [List.drop_left, List.take_left]
    have hcond : (',' == ',' && isWS ' ' && isOpenQ '"' && a.all isDotC) = true := by
      rw [List.all_eq_true.mpr han]
      decide
    simp only [hcond, if_pos]
    rw [refpat0Title_at t src htq htn hsq hjnl]
    rfl
  have h3 : ∀ m, a.length < m →
      m ≤ (a ++ ',' :: ' ' :: '"' :: (t ++ ',' :: '"' :: ' ' :: src)).length →
      refpat0Check (a ++ ',' :: ' ' :: '"' :: (t ++ ',' :: '"' :: ' ' :: src)) m
        = none := by
    intro m hm _
    unfold refpat0Check
    cases hd : (a ++ ',' :: ' ' :: '"' :: (t ++ ',' :: '"' :: ' ' :: src)).drop m with
    | nil => rfl
    | cons c1 r1 =>
      cases r1 with
      | nil => rfl
      | cons w r2 =>
        cases r2 with
        | nil => rfl
        | cons q rest =>
          have hqget : (a ++ ',' :: ' ' :: '"' ::
              (t ++ ',' :: '"' :: ' ' :: src)).get? (m + 2) = some q := by
            have hq1 : ((a ++ ',' :: ' ' :: '"' ::
                (t ++ ',' :: '"' :: ' ' :: src)).drop m).get? 2 = some q := by
              rw [hd]; rfl
            rwa [List.get?_drop] at hq1
          have hwget : (a ++ ',' :: ' ' :: '"' ::
              (t ++ ',' :: '"' :: ' ' :: src)).get? (m + 1) = some w := by
            have hw1 : ((a ++ ',' :: ' ' :: '"' ::
                (t ++ ',' :: '"' :: ' ' :: src)).drop m).get? 1 = some w := by
              rw [hd]; rfl
            rwa [List.get?_drop] at hw1
          by_cases hoq : isOpenQ q = true
          · have hpos := s_quote_pos a t src isOpenQ
              (fun c hc => (haq c hc).1) (fun c hc => (htq c hc).1)
              (fun c hc => (hsq c hc).1) (by decide) (by decide)
              (m + 2) q hqget hoq
            rcases hpos with h' | h'
            · omega
            · -- `w` is the comma before the closing quote: not whitespace
              have hcomma : (a ++ ',' :: ' ' :: '"' ::
                  (t ++ ',' :: '"' :: ' ' :: src)).get? (m + 1) = some ',' := by
                rw [show m + 1 = a.length + 3 + t.length from by omega]
                exact s_comma_pos a t src
              have hwc : w = ',' := by
                rw [hwget] at hcomma
                exact Option.some.inj hcomma
              rw [hwc]
              simp [isWS]
          · simp [hoq]
  exact downFirst_eq_some h1 h2 h3

/-- C3, witness: the amended statement at the concrete citation
`A. Author, "Nice Title," J. Phys, B (2020).`. -/
theorem c3_witness :
    (noQuote "A. Author".data ∧ noNl "A. Author".data ∧
     noQuote "Nice Title".data ∧ noNl "Nice Title".data ∧
     noQuote "J. Phys, B (2020).".data ∧
     jnlMatch "J. Phys, B (2020).".data = true) ∧
    refpat0Match
        (quotedCommaInside "A. Author".data "Nice Title".data
          "J. Phys, B (2020).".data) =
      some ("A. Author".data, "Nice Title".data) :=
  ⟨⟨by decide, by decide, by decide, by decide, by decide, by decide⟩,
    c3_quoted_title "A. Author".data "Nice Title".data "J. Phys, B (2020).".data
      (by decide) (by decide) (by decide) (by decide) (by decide) (by decide)⟩

end SrxivModel
